import Mathlib

set_option maxRecDepth 8000

unseal Rat.add Rat.sub Rat.mul Rat.inv

/-!
Verification development for the Bond Liquidity Heatmap repository.

Part 1 embeds the metrics engine of `src/compute_metrics.py`: per-instrument
rolling depth/spread/vwap computation over a sorted trade series, followed by
per-instrument max-normalization and a row-wise `dropna`.

Part 2 embeds the grid aggregation of `main.py` (`render` and `colour`):
tenor bucketing, latest-per-instrument selection, per-cell aggregation,
dynamic quantile thresholds and the tri-colour classification.

Floats are modelled by rationals; pandas `NaN` fields are modelled by
`Option ℚ` (a missing value propagates through arithmetic and makes the row
fall to `dropna`).  Quantities are assumed non-negative, as the data model
states; with non-negative quantities a zero volume-window always produces a
`0/0 = NaN` vwap, which `Option` renders as `none`.
-/

namespace Heatmap

/-- A raw trade print (`raw_trade_events` row), restricted to the columns the
metrics engine reads: `trade_ts` (in minutes), `price`, `qty_cr`, plus the
`isin` used for grouping (instrument ids are coded as naturals). -/
structure Trade where
  isin : Nat
  ts : ℚ
  price : ℚ
  qty : ℚ
deriving DecidableEq, Repr

/-- Comparison used by `group.sort_values('trade_ts')`. -/
def byTs (a b : Trade) : Prop := a.ts ≤ b.ts

instance : DecidableRel byTs := fun a b => inferInstanceAs (Decidable (a.ts ≤ b.ts))

instance : IsTotal Trade byTs := ⟨fun a b => le_total a.ts b.ts⟩

instance : IsTrans Trade byTs := ⟨fun _ _ _ hab hbc => le_trans hab hbc⟩

/-- Pandas `group.sort_values('trade_ts')`: sort the instrument's trades by timestamp. -/
def sortTrades (l : List Trade) : List Trade := List.insertionSort byTs l

/-- Timestamp of row `i` of the sorted group (none when out of range). -/
def tsAt (g : List Trade) (i : Nat) : Option ℚ := (g.get? i).map (·.ts)

/-- Price of row `i`. -/
def priceAt (g : List Trade) (i : Nat) : Option ℚ := (g.get? i).map (·.price)

/-- Quantity (`qty_cr`) of row `i`. -/
def qtyAt (g : List Trade) (i : Nat) : Option ℚ := (g.get? i).map (·.qty)

/-- Pandas `trade_ts.diff().dt.total_seconds()/60`: minutes since the previous trade,
undefined (`NaN`) for the first row. -/
def time_since_last (g : List Trade) : Nat → Option ℚ
  | 0 => none
  | j + 1 =>
    (tsAt g j).bind fun a =>
    (tsAt g (j + 1)).bind fun b =>
    some (b - a)

/-- Pandas `price.diff().abs() * 10000`: consecutive-trade price change in basis
points, undefined for the first row. -/
def spread_bps (g : List Trade) : Nat → Option ℚ
  | 0 => none
  | j + 1 =>
    (priceAt g j).bind fun a =>
    (priceAt g (j + 1)).bind fun b =>
    some (|b - a| * 10000)

/-- Index window of a pandas `rolling(w)` at position `i`: the last `w`
positions among `0..i`. -/
def window (w i : Nat) : List Nat := (List.range (i + 1)).drop (i + 1 - w)

/-- The defined (non-`NaN`) values of series `f` inside the window. -/
def rollVals (f : Nat → Option ℚ) (w i : Nat) : List ℚ := (window w i).filterMap f

/-- Pandas `rolling(w, min_periods=m).sum()` at position `i`. -/
def rollSum (f : Nat → Option ℚ) (w m i : Nat) : Option ℚ :=
  let vs := rollVals f w i
  if m ≤ vs.length then some vs.sum else none

/-- Pandas `rolling(w, min_periods=m).mean()` at position `i`. -/
def rollMean (f : Nat → Option ℚ) (w m i : Nat) : Option ℚ :=
  let vs := rollVals f w i
  if m ≤ vs.length then some (vs.sum / vs.length) else none

/-- Column `qty_cr.rolling(10, min_periods=5).sum()`. -/
def rolling_volume (g : List Trade) (i : Nat) : Option ℚ := rollSum (qtyAt g) 10 5 i

/-- Column `spread_bps.rolling(10, min_periods=5).mean()`. -/
def rolling_spread (g : List Trade) (i : Nat) : Option ℚ := rollMean (spread_bps g) 10 5 i

/-- Column `time_since_last.rolling(10, min_periods=5).mean()`. -/
def rolling_time (g : List Trade) (i : Nat) : Option ℚ := rollMean (time_since_last g) 10 5 i

/-- Raw (pre-normalization) depth score:
`(rolling_volume / (rolling_time + 0.5)) / (rolling_spread + 0.5)`. -/
def rawDepth (g : List Trade) (i : Nat) : Option ℚ :=
  (rolling_volume g i).bind fun v =>
  (rolling_time g i).bind fun t =>
  (rolling_spread g i).bind fun s =>
  some (v / (t + 1/2) / (s + 1/2))

/-- Maximum of a list of rationals (`none` on the empty list), mirroring a
pandas `.max()` which skips `NaN`s. -/
def listMax : List ℚ → Option ℚ
  | [] => none
  | x :: xs => some (match listMax xs with | none => x | some m => max x m)

/-- Value `group['depth_score'].max()` over the raw depth series. -/
def maxRawDepth (g : List Trade) : Option ℚ :=
  listMax ((List.range g.length).filterMap (rawDepth g))

/-- The emitted `depth_score` column: raw depth rescaled by
`(/ max) * 100` when the series maximum is `> 0`, passed through otherwise
(a `NaN` maximum compares false to `0` in pandas, hence also passes through). -/
def depth_score (g : List Trade) (i : Nat) : Option ℚ :=
  match maxRawDepth g with
  | some M => if 0 < M then (rawDepth g i).map (fun r => r / M * 100) else rawDepth g i
  | none => rawDepth g i

/-- Column `(price*qty).rolling(10, min_periods=1).sum() / qty.rolling(10, min_periods=1).sum()`.
With non-negative quantities a zero denominator forces a zero numerator, so the
pandas result is `0/0 = NaN`, modelled as `none`. -/
def vwap (g : List Trade) (i : Nat) : Option ℚ :=
  let num := (rollVals (fun j =>
    (priceAt g j).bind fun p =>
    (qtyAt g j).bind fun q =>
    some (p * q)) 10 i).sum
  let den := (rollVals (qtyAt g) 10 i).sum
  if den = 0 then none else some (num / den)

/-- Column `qty_cr.rolling(window=15, min_periods=1).sum()`. -/
def volume_15min (g : List Trade) (i : Nat) : Option ℚ := rollSum (qtyAt g) 15 1 i

/-- One row of the `trade_metrics` table (all fields defined: rows with any
`NaN` field have been removed by `metrics_df.dropna()`). -/
structure MetricRecord where
  isin : Nat
  ts : ℚ
  depth : ℚ
  spread : ℚ
  time_since : ℚ
  vw : ℚ
  vol15 : ℚ
  price : ℚ
  qty : ℚ
deriving DecidableEq, Repr

/-- Row `i` of an instrument's output frame, `none` when any column is `NaN`
(the row is then dropped by `dropna`). -/
def rowAt (isin : Nat) (g : List Trade) (i : Nat) : Option MetricRecord :=
  (g.get? i).bind fun t =>
  (depth_score g i).bind fun d =>
  (spread_bps g i).bind fun s =>
  (time_since_last g i).bind fun tl =>
  (vwap g i).bind fun vw =>
  (volume_15min g i).bind fun v15 =>
  some ⟨isin, t.ts, d, s, tl, vw, v15, t.price, t.qty⟩

/-- Function `compute_depth_score` on one instrument's trades followed by the row-wise
`dropna`: sort by timestamp, derive all columns, keep the rows with every
field defined. -/
def compute_depth_score (isin : Nat) (trades : List Trade) : List MetricRecord :=
  let g := sortTrades trades
  (List.range g.length).filterMap (rowAt isin g)

/-- First-appearance-order deduplication (pandas `Series.unique`), with the
already-seen values accumulated structurally. -/
def uniqueFirstAux (seen : List Nat) : List Nat → List Nat
  | [] => []
  | x :: xs => if x ∈ seen then uniqueFirstAux seen xs else x :: uniqueFirstAux (x :: seen) xs

/-- Pandas `trades['isin'].unique()`: distinct instrument ids in order of first
appearance. -/
def uniqueFirst (l : List Nat) : List Nat := uniqueFirstAux [] l

/-- Contribution of one instrument group to the batch: skipped when the group
has fewer than 6 trades (`len > 5` gate), the empty list when the computation
raises (the `except` branch), and its metric rows otherwise. -/
def groupContribution (f : Nat × List Trade → Except Unit (List MetricRecord))
    (p : Nat × List Trade) : List MetricRecord :=
  if 5 < p.2.length then
    match f p with
    | .ok ms => ms
    | .error _ => []
  else []

/-- The per-ISIN batch loop of `compute_metrics.py`, with the per-group
computation abstracted as a fallible function `f` (exceptions modelled by
`Except`). -/
def runBatch (f : Nat × List Trade → Except Unit (List MetricRecord))
    (trades : List Trade) : List MetricRecord :=
  ((uniqueFirst (trades.map (·.isin))).map
    (fun i => groupContribution f (i, trades.filter (fun t => t.isin = i)))).flatten

/-- The concrete batch: every group computed by `compute_depth_score`
(which raises no exception in the model). -/
def engine (trades : List Trade) : List MetricRecord :=
  runBatch (fun p => .ok (compute_depth_score p.1 p.2)) trades

/-! ### Concrete inputs used in the scenario theorems and witnesses -/

/-- Six trades of one instrument at one-minute intervals with constant price
`100.0` and constant quantity `1,000,000`: the end-to-end scenario input. -/
def c5Trades : List Trade :=
  [⟨1, 0, 100, 1000000⟩, ⟨1, 1, 100, 1000000⟩, ⟨1, 2, 100, 1000000⟩,
   ⟨1, 3, 100, 1000000⟩, ⟨1, 4, 100, 1000000⟩, ⟨1, 5, 100, 1000000⟩]

/-- The single metric record the engine emits for `c5Trades` (the 6th trade). -/
def c5Record : MetricRecord := ⟨1, 5, 100, 0, 1, 100, 6000000, 100, 1000000⟩

/-- Fifteen trades of one instrument with quantity `0` throughout (the
degenerate all-zero-volume instrument). -/
def c1ZeroTrades : List Trade :=
  [⟨0, 0, 100, 0⟩, ⟨0, 1, 100, 0⟩, ⟨0, 2, 100, 0⟩, ⟨0, 3, 100, 0⟩, ⟨0, 4, 100, 0⟩,
   ⟨0, 5, 100, 0⟩, ⟨0, 6, 100, 0⟩, ⟨0, 7, 100, 0⟩, ⟨0, 8, 100, 0⟩, ⟨0, 9, 100, 0⟩,
   ⟨0, 10, 100, 0⟩, ⟨0, 11, 100, 0⟩, ⟨0, 12, 100, 0⟩, ⟨0, 13, 100, 0⟩, ⟨0, 14, 100, 0⟩]

/-- A per-group computation that raises on instrument `2` and computes the
real series everywhere else. -/
def c9Fail : Nat × List Trade → Except Unit (List MetricRecord) :=
  fun p => if p.1 = 2 then .error () else .ok (compute_depth_score p.1 p.2)

/-- A small mixed batch containing the failing instrument `2`. -/
def c9Trades : List Trade :=
  [⟨2, 0, 1, 1⟩, ⟨1, 0, 5, 5⟩, ⟨2, 1, 1, 1⟩]

/-! ### GridAggregator (`main.py`, `render` and `colour`)

A metrics row as `render` sees it after the merge with the per-instrument
attributes: timestamps are in days since an epoch (so that
`(maturity_date - trade_ts).dt.days` is a floor of a day difference),
`maturity` is a whole day number, and `rating` is `none` when the left-merge
found no attribute row (a pandas `NaN` group key, dropped by `groupby`). -/
structure MRow where
  isin : Nat
  ts : ℚ
  rating : Option Nat
  maturity : ℤ
  depth : ℚ
  spread : ℚ
  qty : ℚ
  vw : ℚ
deriving DecidableEq, Repr

/-- Column `(maturity_date - trade_ts).dt.days`: the floored day difference. -/
def tenorDays (r : MRow) : ℤ := ⌊(r.maturity : ℚ) - r.ts⌋

/-- Column `tenor_years = (maturity_date - trade_ts).dt.days / 365`. -/
def tenor_years (r : MRow) : ℚ := (tenorDays r : ℚ) / 365

/-- Pandas `pd.cut(tenor_years, bins=[0,1,3,5,10,100], right=False)`: left-closed,
right-open year buckets; values outside every bin get `NaN` (`none`). -/
def tenor_bucket (y : ℚ) : Option (Fin 5) :=
  if 0 ≤ y ∧ y < 1 then some 0
  else if 1 ≤ y ∧ y < 3 then some 1
  else if 3 ≤ y ∧ y < 5 then some 2
  else if 5 ≤ y ∧ y < 10 then some 3
  else if 10 ≤ y ∧ y < 100 then some 4
  else none

/-- The bucket of a metrics row. -/
def bucketOf (r : MRow) : Option (Fin 5) := tenor_bucket (tenor_years r)

/-- The code's bucket assignment as a function of the whole-day tenor. -/
def tenorBucketDays (d : ℤ) : Option (Fin 5) := tenor_bucket ((d : ℚ) / 365)

/-- Modelled from the spec: the tenor partition in days exactly as the spec
words it, `[0,365), [366,1095), [1096,1825), [1826,3650), [3650,unbounded)`,
used only to compare the spec's stated ranges with the code's. -/
def specTenorBucketDays (d : ℤ) : Option (Fin 5) :=
  if 0 ≤ d ∧ d < 365 then some 0
  else if 366 ≤ d ∧ d < 1095 then some 1
  else if 1096 ≤ d ∧ d < 1825 then some 2
  else if 1826 ≤ d ∧ d < 3650 then some 3
  else if 3650 ≤ d then some 4
  else none

/-- Pandas `metrics.groupby('isin')['trade_ts'].idxmax()` on one instrument's rows:
the first row attaining the maximal timestamp (later rows replace the
candidate only when strictly more recent). -/
def pickLatest : List MRow → Option MRow
  | [] => none
  | r :: rs =>
    match pickLatest rs with
    | none => some r
    | some b => if b.ts > r.ts then some b else some r

/-- The distinct instrument ids in ascending order (pandas `groupby` sorts
its keys). -/
def sortedIsins (ms : List MRow) : List Nat :=
  List.insertionSort (· ≤ ·) (uniqueFirst (ms.map (·.isin)))

/-- Selection `metrics.loc[metrics.groupby('isin')['trade_ts'].idxmax()]`: one row per
instrument, the first row with the maximal timestamp, in ascending id order. -/
def latestPerInstrument (ms : List MRow) : List MRow :=
  (sortedIsins ms).filterMap (fun i => pickLatest (ms.filter (fun r => r.isin = i)))

/-- Linear-interpolation quantile `q = a/b` of a list (pandas
`Series.quantile(a/b)`; `none` on the empty list, matching a `NaN` result):
sort, take `h = (a/b)*(n-1)`, and interpolate between the two neighbouring
order statistics. -/
def quantileAB (a b : Nat) (l : List ℚ) : Option ℚ :=
  match l with
  | [] => none
  | _ :: _ =>
    let s := List.insertionSort (· ≤ ·) l
    let n := s.length
    let lo := (a * (n - 1)) / b
    let frac : ℚ := ((a * (n - 1) : Nat) : ℚ) / ((b : Nat) : ℚ) - ((lo : Nat) : ℚ)
    some (s.getD lo 0 + frac * (s.getD (lo + 1) 0 - s.getD lo 0))

/-- One cell of the heatmap grid (`grid` row in `render`): key, median depth,
median spread, summed volume, contributing-instrument count, and the `last`
aggregated vwap. -/
structure GridCell where
  rating : Nat
  bucket : Fin 5
  depth : Option ℚ
  spread : Option ℚ
  volume : ℚ
  n_trades : Nat
  vw : Option ℚ
deriving DecidableEq, Repr

/-- The rows of the latest-per-instrument frame that fall in cell `(ρ, b)`. -/
def cellRows (latest : List MRow) (ρ : Nat) (b : Fin 5) : List MRow :=
  latest.filter (fun r => r.rating = some ρ ∧ bucketOf r = some b)

/-- The aggregation of one `(rating, tenor_bucket)` group: median depth and
spread, summed quantity, row count, and the `'last'` vwap (the last row of the
group in frame order, which is ascending instrument id). -/
def mkCell (latest : List MRow) (ρ : Nat) (b : Fin 5) : GridCell :=
  let rows := cellRows latest ρ b
  { rating := ρ, bucket := b,
    depth := quantileAB 1 2 (rows.map (·.depth)),
    spread := quantileAB 1 2 (rows.map (·.spread)),
    volume := (rows.map (·.qty)).sum,
    n_trades := rows.length,
    vw := (rows.getLast?).map (·.vw) }

/-- The five tenor bucket labels in order. -/
def bucketList : List (Fin 5) := [0, 1, 2, 3, 4]

/-- The observed rating levels of the latest frame, ascending (`groupby` with
`observed=False` keeps all 5 categorical buckets but only observed ratings;
`NaN` rating keys are dropped). -/
def gridRatings (latest : List MRow) : List Nat :=
  List.insertionSort (· ≤ ·) (uniqueFirst (latest.filterMap (·.rating)))

/-- The full grid: one cell per observed rating and each of the 5 buckets. -/
def grid (ms : List MRow) : List GridCell :=
  let latest := latestPerInstrument ms
  ((gridRatings latest).map (fun ρ => bucketList.map (fun b => mkCell latest ρ b))).flatten

/-- Median depths of the cells, pandas `quantile` skipping `NaN` cells. -/
def gridDepths (cs : List GridCell) : List ℚ := cs.filterMap (·.depth)

/-- Median spreads of the cells. -/
def gridSpreads (cs : List GridCell) : List ℚ := cs.filterMap (·.spread)

/-- The dynamic thresholds `(p25, p75, median_spread)` of a grid. -/
def thresholds (ms : List MRow) : Option ℚ × Option ℚ × Option ℚ :=
  (quantileAB 1 4 (gridDepths (grid ms)), quantileAB 3 4 (gridDepths (grid ms)),
    quantileAB 1 2 (gridSpreads (grid ms)))

/-- The three cell classifications (`'#e74c3c'` red, `'#f39c12'` amber,
`'#27ae60'` green). -/
inductive Colour where
  | red
  | amber
  | green
deriving DecidableEq, Repr

/-- Comparison `a < b` on possibly-`NaN` values: false whenever either side is `NaN`,
as in pandas. -/
def oLtB (a b : Option ℚ) : Bool :=
  match a, b with
  | some x, some y => decide (x < y)
  | _, _ => false

/-- Comparison `a ≤ b` on possibly-`NaN` values. -/
def oLeB (a b : Option ℚ) : Bool :=
  match a, b with
  | some x, some y => decide (x ≤ y)
  | _, _ => false

/-- The `colour` closure of `render`: RED when depth is missing, depth < p25
or spread > 1.5×median_spread; else GREEN when depth ≥ p75 and
spread ≤ median_spread; else AMBER. -/
def colour (p25 p75 medSpread : Option ℚ) (depth spread : Option ℚ) : Colour :=
  if depth.isNone || oLtB depth p25 || oLtB (medSpread.map (fun m => m * (3/2))) spread then
    .red
  else if oLeB p75 depth && oLeB spread medSpread then
    .green
  else
    .amber

/-- The classified grid: every cell with its colour, thresholds derived from
the current grid itself. -/
def aggregate (ms : List MRow) : List (GridCell × Colour) :=
  (grid ms).map (fun c =>
    (c, colour (quantileAB 1 4 (gridDepths (grid ms))) (quantileAB 3 4 (gridDepths (grid ms)))
      (quantileAB 1 2 (gridSpreads (grid ms))) c.depth c.spread))

/-- Sum of the per-cell contributing-instrument counts. -/
def sumTradeCount (cs : List GridCell) : Nat := (cs.map (·.n_trades)).sum

/-- A metrics row with tenor day 365 exactly (maturity day 365, trade at
day 0): the code buckets it as `1-3y`, the spec's stated ranges exclude it. -/
def c3Row : MRow := ⟨1, 0, some 0, 365, 50, 1, 10, 100⟩

/-- One instrument with an earlier bucketable record and a later record whose
maturity lies before the trade (negative tenor, unbucketable). -/
def c6Rows : List MRow :=
  [⟨1, 0, some 0, 100, 50, 1, 10, 100⟩,
   ⟨1, 10, some 0, 5, 60, 2, 20, 101⟩]

/-- Two instruments in the same cell: instrument 1 trades most recently
(ts 10, vwap 100), instrument 2 earlier (ts 5, vwap 200). -/
def c7Rows : List MRow :=
  [⟨1, 10, some 0, 400, 50, 1, 10, 100⟩,
   ⟨2, 5, some 0, 400, 60, 2, 20, 200⟩]

/-! ### Generic lemmas about the helper functions -/

theorem mem_uniqueFirstAux {seen : List Nat} {l : List Nat} {x : Nat} :
    x ∈ uniqueFirstAux seen l ↔ x ∈ l ∧ x ∉ seen := by
  induction l generalizing seen with
  | nil => simp [uniqueFirstAux]
  | cons a t ih =>
    by_cases ha : a ∈ seen
    · simp only [uniqueFirstAux, if_pos ha, ih, List.mem_cons]
      constructor
      · rintro ⟨hx, hs⟩; exact ⟨Or.inr hx, hs⟩
      · rintro ⟨hx | hx, hs⟩
        · exact absurd (hx ▸ ha) hs
        · exact ⟨hx, hs⟩
    · simp only [uniqueFirstAux, if_neg ha, List.mem_cons, ih]
      constructor
      · rintro (rfl | ⟨hx, hs⟩)
        · exact ⟨Or.inl rfl, ha⟩
        · exact ⟨Or.inr hx, fun h => hs (Or.inr h)⟩
      · rintro ⟨rfl | hx, hs⟩
        · exact Or.inl rfl
        · by_cases hxa : x = a
          · exact Or.inl hxa
          · exact Or.inr ⟨hx, fun h => h.elim hxa hs⟩

theorem mem_uniqueFirst {l : List Nat} {x : Nat} : x ∈ uniqueFirst l ↔ x ∈ l := by
  simp [uniqueFirst, mem_uniqueFirstAux]

theorem nodup_uniqueFirstAux (seen : List Nat) (l : List Nat) :
    (uniqueFirstAux seen l).Nodup := by
  induction l generalizing seen with
  | nil => simp [uniqueFirstAux]
  | cons a t ih =>
    by_cases ha : a ∈ seen
    · simpa [uniqueFirstAux, if_pos ha] using ih seen
    · simp only [uniqueFirstAux, if_neg ha, List.nodup_cons]
      refine ⟨fun hmem => ?_, ih (a :: seen)⟩
      exact (mem_uniqueFirstAux.mp hmem).2 (List.mem_cons_self _ _)

theorem nodup_uniqueFirst (l : List Nat) : (uniqueFirst l).Nodup :=
  nodup_uniqueFirstAux [] l

theorem uniqueFirstAux_filter (q : Nat → Prop) [DecidablePred q] (l : List Nat) :
    ∀ (seen seen' : List Nat), (∀ x, q x → (x ∈ seen ↔ x ∈ seen')) →
      uniqueFirstAux seen (l.filter (fun x => q x)) =
        (uniqueFirstAux seen' l).filter (fun x => q x) := by
  induction l with
  | nil => intro seen seen' _; simp [uniqueFirstAux]
  | cons a t ih =>
    intro seen seen' hss
    by_cases hqa : q a
    · rw [List.filter_cons_of_pos (by simpa using hqa)]
      by_cases ha : a ∈ seen'
      · have ha' : a ∈ seen := (hss a hqa).mpr ha
        rw [uniqueFirstAux, if_pos ha', uniqueFirstAux, if_pos ha]
        exact ih seen seen' hss
      · have ha' : a ∉ seen := fun h => ha ((hss a hqa).mp h)
        rw [uniqueFirstAux, if_neg ha', uniqueFirstAux, if_neg ha,
          List.filter_cons_of_pos (by simpa using hqa)]
        refine congrArg (a :: ·) (ih _ _ ?_)
        intro x hqx
        simp only [List.mem_cons]
        rw [hss x hqx]
    · rw [List.filter_cons_of_neg (by simpa using hqa)]
      by_cases ha : a ∈ seen'
      · rw [uniqueFirstAux, if_pos ha]
        exact ih seen seen' hss
      · rw [uniqueFirstAux, if_neg ha, List.filter_cons_of_neg (by simpa using hqa)]
        refine ih _ _ ?_
        intro x hqx
        have hxa : x ≠ a := fun h => hqa (h ▸ hqx)
        simp only [List.mem_cons, hxa, false_or]
        exact hss x hqx

theorem uniqueFirst_filter (q : Nat → Prop) [DecidablePred q] (l : List Nat) :
    uniqueFirst (l.filter (fun x => q x)) = (uniqueFirst l).filter (fun x => q x) :=
  uniqueFirstAux_filter q l [] [] (by simp)

theorem rowAt_isin {j : Nat} {g : List Trade} {i : Nat} {r : MetricRecord}
    (h : rowAt j g i = some r) : r.isin = j := by
  simp only [rowAt, Option.bind_eq_some, Option.some.injEq] at h
  obtain ⟨t, _, d, _, s, _, tl, _, vw, _, v15, _, hr⟩ := h
  rw [← hr]

theorem compute_depth_score_isin {j : Nat} {trades : List Trade} {r : MetricRecord}
    (h : r ∈ compute_depth_score j trades) : r.isin = j := by
  simp only [compute_depth_score, List.mem_filterMap] at h
  obtain ⟨i, _, hrow⟩ := h
  exact rowAt_isin hrow

theorem flatten_filter_single {h : Nat → List MetricRecord}
    (hh : ∀ j r, r ∈ h j → r.isin = j) (i : Nat) {L : List Nat} (hL : L.Nodup) :
    ((L.map h).flatten.filter (fun r => r.isin = i)) = if i ∈ L then h i else [] := by
  induction L with
  | nil => simp
  | cons j t ih =>
    rw [List.map_cons, List.flatten_cons, List.filter_append,
      ih (List.nodup_cons.mp hL).2]
    by_cases hji : j = i
    · subst hji
      have h1 : (h j).filter (fun r => r.isin = j) = h j := by
        rw [List.filter_eq_self]
        intro a ha
        simp [hh j a ha]
      have h2 : j ∉ t := (List.nodup_cons.mp hL).1
      simp [h1, h2]
    · have h1 : (h j).filter (fun r => r.isin = i) = [] := by
        rw [List.filter_eq_nil_iff]
        intro a ha
        simp [hh j a ha, hji]
      have h2 : (i ∈ j :: t) ↔ i ∈ t := by
        rw [List.mem_cons]
        constructor
        · rintro (rfl | hm)
          · exact absurd rfl hji
          · exact hm
        · exact Or.inr
      simp only [h1, List.nil_append, h2]

theorem engine_group_split (trades : List Trade) (i : Nat) :
    (engine trades).filter (fun r => r.isin = i) =
      if (trades.filter (fun t => t.isin = i)).length < 6 then []
      else compute_depth_score i (trades.filter (fun t => t.isin = i)) := by
  unfold engine runBatch
  have hh : ∀ j r, r ∈ groupContribution (fun p => .ok (compute_depth_score p.1 p.2))
      (j, trades.filter (fun t => t.isin = j)) → r.isin = j := by
    intro j r hr
    unfold groupContribution at hr
    split at hr
    · exact compute_depth_score_isin hr
    · simp at hr
  rw [flatten_filter_single hh i (nodup_uniqueFirst _)]
  by_cases hmem : i ∈ uniqueFirst (trades.map (fun t => t.isin))
  · rw [if_pos hmem]
    unfold groupContribution
    dsimp only
    rcases Nat.lt_or_ge (trades.filter (fun t => t.isin = i)).length 6 with h6 | h6
    · rw [if_pos h6, if_neg (show ¬5 < (trades.filter (fun t => t.isin = i)).length by omega)]
    · rw [if_neg (show ¬(trades.filter (fun t => t.isin = i)).length < 6 by omega),
        if_pos (show 5 < (trades.filter (fun t => t.isin = i)).length by omega)]
  · rw [if_neg hmem]
    have hempty : trades.filter (fun t => t.isin = i) = [] := by
      rw [List.filter_eq_nil_iff]
      intro t ht
      simp only [decide_eq_true_eq]
      intro hti
      exact hmem (mem_uniqueFirst.mpr (hti ▸ List.mem_map_of_mem (fun t => t.isin) ht))
    rw [hempty]
    simp

theorem map_isin_filter_ne (trades : List Trade) (i : Nat) :
    (trades.filter (fun t => t.isin ≠ i)).map (fun t => t.isin) =
      (trades.map (fun t => t.isin)).filter (fun x => x ≠ i) := by
  induction trades with
  | nil => simp
  | cons a t ih =>
    simp only [ne_eq, decide_not] at ih ⊢
    by_cases ha : a.isin = i
    · simp [List.filter_cons, ha, ih]
    · simp [List.filter_cons, ha, ih]

theorem filter_ne_filter_eq (trades : List Trade) {i j : Nat} (hij : j ≠ i) :
    (trades.filter (fun t => t.isin ≠ i)).filter (fun t => t.isin = j) =
      trades.filter (fun t => t.isin = j) := by
  rw [List.filter_filter]
  apply List.filter_congr
  intro t _
  by_cases ht : t.isin = j
  · simp [ht, hij]
  · simp [ht]

theorem flatten_map_skip {F : Nat → List MetricRecord} {i : Nat} (hFi : F i = [])
    (L : List Nat) :
    ((L.filter (fun x => x ≠ i)).map F).flatten = (L.map F).flatten := by
  induction L with
  | nil => simp
  | cons a t ih =>
    simp only [ne_eq, decide_not] at ih ⊢
    by_cases ha : a = i
    · subst ha
      simp [List.filter_cons, hFi, ih]
    · simp [List.filter_cons, ha, ih]

theorem batch_isolation (f : Nat × List Trade → Except Unit (List MetricRecord))
    (trades : List Trade) (i : Nat)
    (hfail : f (i, trades.filter (fun t => t.isin = i)) = .error ()) :
    runBatch f (trades.filter (fun t => t.isin ≠ i)) = runBatch f trades := by
  unfold runBatch
  rw [map_isin_filter_ne, uniqueFirst_filter (fun x => x ≠ i)]
  have hcongr : ∀ j ∈ (uniqueFirst (trades.map (fun t => t.isin))).filter (fun x => x ≠ i),
      groupContribution f (j, (trades.filter (fun t => t.isin ≠ i)).filter
        (fun t => t.isin = j)) =
      groupContribution f (j, trades.filter (fun t => t.isin = j)) := by
    intro j hj
    have hij : j ≠ i := by simpa using (List.mem_filter.mp hj).2
    rw [filter_ne_filter_eq trades hij]
  rw [List.map_congr_left hcongr]
  have hFi : groupContribution f (i, trades.filter (fun t => t.isin = i)) = [] := by
    unfold groupContribution
    rw [hfail]
    simp
  exact flatten_map_skip hFi _

/-! ### Facts about the raw depth series and the normalization -/

theorem listMax_eq_none {l : List ℚ} : listMax l = none ↔ l = [] := by
  cases l <;> simp [listMax]

theorem listMax_le {l : List ℚ} {a m : ℚ} (ha : a ∈ l) (hm : listMax l = some m) :
    a ≤ m := by
  induction l generalizing m with
  | nil => cases ha
  | cons x xs ih =>
    cases hlx : listMax xs with
    | none =>
      have hxs : xs = [] := listMax_eq_none.mp hlx
      subst hxs
      simp only [listMax, hlx, Option.some.injEq] at hm
      rcases List.mem_singleton.mp ha with rfl
      exact le_of_eq hm
    | some mx =>
      simp only [listMax, hlx, Option.some.injEq] at hm
      rcases List.mem_cons.mp ha with rfl | hmem
      · rw [← hm]; exact le_max_left _ _
      · exact (ih hmem hlx).trans (hm ▸ le_max_right x mx)

theorem listMax_mem {l : List ℚ} {m : ℚ} (hm : listMax l = some m) : m ∈ l := by
  induction l generalizing m with
  | nil => simp [listMax] at hm
  | cons x xs ih =>
    cases hlx : listMax xs with
    | none =>
      simp only [listMax, hlx, Option.some.injEq] at hm
      exact hm ▸ List.mem_cons_self _ _
    | some mx =>
      simp only [listMax, hlx, Option.some.injEq] at hm
      subst hm
      rcases max_choice x mx with hc | hc
      · rw [hc]
        exact List.mem_cons_self _ _
      · rw [hc]
        exact List.mem_cons_of_mem _ (ih hlx)

theorem listMax_isSome {l : List ℚ} (h : l ≠ []) : ∃ m, listMax l = some m := by
  cases l with
  | nil => exact absurd rfl h
  | cons x xs => exact ⟨_, rfl⟩

theorem rollVals_mem {f : Nat → Option ℚ} {w i : Nat} {v : ℚ}
    (hv : v ∈ rollVals f w i) : ∃ j, f j = some v := by
  obtain ⟨j, _, hj⟩ := List.mem_filterMap.mp hv
  exact ⟨j, hj⟩

theorem rollMean_nonneg {f : Nat → Option ℚ} {w m i : Nat} {u : ℚ}
    (hf : ∀ j v, f j = some v → 0 ≤ v) (h : rollMean f w m i = some u) : 0 ≤ u := by
  simp only [rollMean] at h
  split at h
  · obtain rfl := Option.some.inj h
    have hsum : 0 ≤ (rollVals f w i).sum := by
      apply List.sum_nonneg
      intro v hv
      obtain ⟨j, hj⟩ := rollVals_mem hv
      exact hf j v hj
    exact div_nonneg hsum (by positivity)
  · cases h

theorem rollSum_nonneg {f : Nat → Option ℚ} {w m i : Nat} {u : ℚ}
    (hf : ∀ j v, f j = some v → 0 ≤ v) (h : rollSum f w m i = some u) : 0 ≤ u := by
  simp only [rollSum] at h
  split at h
  · obtain rfl := Option.some.inj h
    apply List.sum_nonneg
    intro v hv
    obtain ⟨j, hj⟩ := rollVals_mem hv
    exact hf j v hj
  · cases h

theorem time_since_last_nonneg {g : List Trade} (hs : List.Sorted byTs g) :
    ∀ i v, time_since_last g i = some v → 0 ≤ v := by
  intro i v h
  cases i with
  | zero => cases h
  | succ j =>
    simp only [time_since_last, tsAt, Option.map_eq_some', Option.bind_eq_some,
      Option.some.injEq] at h
    obtain ⟨a, ⟨ta, hta, htsa⟩, b, ⟨tb, htb, htsb⟩, hv⟩ := h
    obtain ⟨hja, hgeta⟩ := List.get?_eq_some.mp hta
    obtain ⟨hjb, hgetb⟩ := List.get?_eq_some.mp htb
    have hrel : byTs (g.get ⟨j, hja⟩) (g.get ⟨j + 1, hjb⟩) :=
      List.pairwise_iff_get.mp hs ⟨j, hja⟩ ⟨j + 1, hjb⟩ (by simp [Fin.mk_lt_mk])
    rw [hgeta, hgetb] at hrel
    have hab : a ≤ b := by
      rw [← htsa, ← htsb]
      exact hrel
    rw [← hv]
    exact sub_nonneg.mpr hab

theorem spread_bps_nonneg {g : List Trade} :
    ∀ i v, spread_bps g i = some v → 0 ≤ v := by
  intro i v h
  cases i with
  | zero => cases h
  | succ j =>
    simp only [spread_bps, Option.bind_eq_some, Option.some.injEq] at h
    obtain ⟨a, _, b, _, hv⟩ := h
    rw [← hv]
    positivity

theorem qtyAt_nonneg {g : List Trade} (hq : ∀ t ∈ g, 0 ≤ t.qty) :
    ∀ j v, qtyAt g j = some v → 0 ≤ v := by
  intro j v h
  simp only [qtyAt, Option.map_eq_some'] at h
  obtain ⟨t, hget, hv⟩ := h
  exact hv ▸ hq t (List.get?_mem hget)

theorem rawDepth_nonneg {g : List Trade} (hs : List.Sorted byTs g)
    (hq : ∀ t ∈ g, 0 ≤ t.qty) {i : Nat} {r : ℚ} (h : rawDepth g i = some r) :
    0 ≤ r := by
  simp only [rawDepth, Option.bind_eq_some, Option.some.injEq] at h
  obtain ⟨v, hv, t, ht, s, hsp, hr⟩ := h
  have hv0 : 0 ≤ v := rollSum_nonneg (qtyAt_nonneg hq) hv
  have ht0 : 0 ≤ t := rollMean_nonneg (time_since_last_nonneg hs) ht
  have hs0 : 0 ≤ s := rollMean_nonneg spread_bps_nonneg hsp
  rw [← hr]
  have h1 : (0:ℚ) < t + 1/2 := by linarith
  have h2 : (0:ℚ) < s + 1/2 := by linarith
  positivity

theorem rawDepth_le_max {g : List Trade} {i : Nat} {r M : ℚ} (hi : i < g.length)
    (hr : rawDepth g i = some r) (hM : maxRawDepth g = some M) : r ≤ M :=
  listMax_le (List.mem_filterMap.mpr ⟨i, List.mem_range.mpr hi, hr⟩) hM

theorem maxRawDepth_isSome {g : List Trade} {i : Nat} {r : ℚ} (hi : i < g.length)
    (hr : rawDepth g i = some r) : ∃ M, maxRawDepth g = some M :=
  listMax_isSome (List.ne_nil_of_mem (List.mem_filterMap.mpr ⟨i, List.mem_range.mpr hi, hr⟩))

theorem rolling_time_zero (g : List Trade) : rolling_time g 0 = none := rfl

theorem rawDepth_zero (g : List Trade) : rawDepth g 0 = none := by
  cases hv : rolling_volume g 0 <;> simp [rawDepth, hv, rolling_time_zero]

theorem time_since_last_isSome {g : List Trade} {i : Nat} (h1 : 1 ≤ i)
    (hi : i < g.length) : ∃ v, time_since_last g i = some v := by
  cases i with
  | zero => omega
  | succ j =>
    have hj : j < g.length := by omega
    exact ⟨(g.get ⟨j + 1, hi⟩).ts - (g.get ⟨j, hj⟩).ts,
      by simp [time_since_last, tsAt, List.get?_eq_get hj, List.get?_eq_get hi, List.getElem?_eq_getElem hj, List.getElem?_eq_getElem hi]⟩

theorem spread_bps_isSome {g : List Trade} {i : Nat} (h1 : 1 ≤ i)
    (hi : i < g.length) : ∃ v, spread_bps g i = some v := by
  cases i with
  | zero => omega
  | succ j =>
    have hj : j < g.length := by omega
    exact ⟨|(g.get ⟨j + 1, hi⟩).price - (g.get ⟨j, hj⟩).price| * 10000,
      by simp [spread_bps, priceAt, List.get?_eq_get hj, List.get?_eq_get hi, List.getElem?_eq_getElem hj, List.getElem?_eq_getElem hi]⟩

theorem vwap_isSome_of_volume_pos {g : List Trade} {i : Nat} {v : ℚ}
    (hvol : rolling_volume g i = some v) (hv : 0 < v) : ∃ u, vwap g i = some u := by
  simp only [rolling_volume, rollSum] at hvol
  split at hvol
  · obtain rfl := Option.some.inj hvol
    simp only [vwap]
    rw [if_neg (ne_of_gt hv)]
    exact ⟨_, rfl⟩
  · cases hvol

theorem self_mem_window {w i : Nat} (hw : 1 ≤ w) : i ∈ window w i := by
  unfold window
  rw [List.range_succ, List.drop_append_of_le_length (by simp; omega)]
  exact List.mem_append_right _ (List.mem_singleton.mpr rfl)

theorem volume_15min_isSome {g : List Trade} {i : Nat} (hi : i < g.length) :
    ∃ u, volume_15min g i = some u := by
  have hq : qtyAt g i = some (g.get ⟨i, hi⟩).qty := by
    unfold qtyAt
    rw [List.get?_eq_get hi]
    rfl
  have hmem : (g.get ⟨i, hi⟩).qty ∈ rollVals (qtyAt g) 15 i :=
    List.mem_filterMap.mpr ⟨i, self_mem_window (by omega), hq⟩
  have hlen : 1 ≤ (rollVals (qtyAt g) 15 i).length :=
    List.length_pos.mpr (List.ne_nil_of_mem hmem)
  simp only [volume_15min, rollSum]
  rw [if_pos hlen]
  exact ⟨_, rfl⟩

theorem rawDepth_index_pos {g : List Trade} {i : Nat} {r : ℚ}
    (h : rawDepth g i = some r) : 1 ≤ i := by
  cases i with
  | zero => rw [rawDepth_zero] at h; cases h
  | succ j => omega

theorem rowAt_depth {isin : Nat} {g : List Trade} {i : Nat} {r : MetricRecord}
    (h : rowAt isin g i = some r) : depth_score g i = some r.depth := by
  simp only [rowAt, Option.bind_eq_some, Option.some.injEq] at h
  obtain ⟨t, _, d, hd, s, _, tl, _, vw, _, v15, _, hr⟩ := h
  rw [← hr]
  exact hd

theorem rowAt_of_vwap_none {isin : Nat} {g : List Trade} {i : Nat}
    (hvw : vwap g i = none) : rowAt isin g i = none := by
  cases hg : g.get? i <;> cases hd : depth_score g i <;> cases hsp : spread_bps g i <;>
    cases ht : time_since_last g i <;> simp [rowAt, hg, hd, hsp, ht, hvw]

theorem depth_score_some_raw {g : List Trade} {i : Nat} {d : ℚ}
    (h : depth_score g i = some d) : ∃ r, rawDepth g i = some r := by
  unfold depth_score at h
  split at h
  · split at h
    · obtain ⟨r, hr, _⟩ := Option.map_eq_some'.mp h
      exact ⟨r, hr⟩
    · exact ⟨d, h⟩
  · exact ⟨d, h⟩

theorem depth_score_bounds {g : List Trade} (hs : List.Sorted byTs g)
    (hq : ∀ t ∈ g, 0 ≤ t.qty) {i : Nat} {d : ℚ} (hi : i < g.length)
    (hd : depth_score g i = some d) : 0 ≤ d ∧ d ≤ 100 := by
  obtain ⟨r0, hr0⟩ := depth_score_some_raw hd
  obtain ⟨M, hM⟩ := maxRawDepth_isSome hi hr0
  unfold depth_score at hd
  rw [hM] at hd
  dsimp only at hd
  by_cases hMpos : 0 < M
  · rw [if_pos hMpos] at hd
    obtain ⟨r, hr, hdr⟩ := Option.map_eq_some'.mp hd
    have h0 : 0 ≤ r := rawDepth_nonneg hs hq hr
    have hle : r ≤ M := rawDepth_le_max hi hr hM
    constructor
    · rw [← hdr]; positivity
    · rw [← hdr]
      have : r / M ≤ 1 := (div_le_one hMpos).mpr hle
      nlinarith
  · rw [if_neg hMpos] at hd
    have h0 : 0 ≤ d := rawDepth_nonneg hs hq hd
    have hle : d ≤ M := rawDepth_le_max hi hd hM
    have hM0 : M ≤ 0 := le_of_not_lt hMpos
    constructor
    · exact h0
    · linarith

theorem volume_pos_of_rawDepth_pos {g : List Trade} (hs : List.Sorted byTs g)
    (hq : ∀ t ∈ g, 0 ≤ t.qty) {i : Nat} {r : ℚ} (hr : rawDepth g i = some r)
    (hrpos : 0 < r) : ∃ v, rolling_volume g i = some v ∧ 0 < v := by
  simp only [rawDepth, Option.bind_eq_some, Option.some.injEq] at hr
  obtain ⟨v, hv, t, ht, s, hsp, hrv⟩ := hr
  refine ⟨v, hv, ?_⟩
  rcases lt_or_eq_of_le (rollSum_nonneg (qtyAt_nonneg hq) hv) with hlt | heq
  · exact hlt
  · exfalso
    rw [← hrv, ← heq] at hrpos
    simp at hrpos

theorem exists_depth100 {g : List Trade} (hs : List.Sorted byTs g)
    (hq : ∀ t ∈ g, 0 ≤ t.qty) {M : ℚ} (hM : maxRawDepth g = some M)
    (hMpos : 0 < M) (isin : Nat) :
    ∃ i, i < g.length ∧ ∃ rec, rowAt isin g i = some rec ∧ rec.depth = 100 := by
  obtain ⟨i, hirange, hiraw⟩ := List.mem_filterMap.mp (listMax_mem hM)
  have hi : i < g.length := List.mem_range.mp hirange
  have h1 : 1 ≤ i := rawDepth_index_pos hiraw
  have hd : depth_score g i = some 100 := by
    unfold depth_score
    rw [hM]
    dsimp only
    rw [if_pos hMpos, hiraw, Option.map_some', div_self (ne_of_gt hMpos), one_mul]
  obtain ⟨v, hv, hvpos⟩ := volume_pos_of_rawDepth_pos hs hq hiraw hMpos
  obtain ⟨vw, hvw⟩ := vwap_isSome_of_volume_pos hv hvpos
  obtain ⟨sv, hsv⟩ := spread_bps_isSome h1 hi
  obtain ⟨tlv, htlv⟩ := time_since_last_isSome h1 hi
  obtain ⟨v15, hv15⟩ := volume_15min_isSome hi
  refine ⟨i, hi, ⟨isin, (g.get ⟨i, hi⟩).ts, 100, sv, tlv, vw, v15,
    (g.get ⟨i, hi⟩).price, (g.get ⟨i, hi⟩).qty⟩, ?_, rfl⟩
  simp [rowAt, List.get?_eq_get hi, List.getElem?_eq_getElem hi, hd, hsv, htlv, hvw, hv15]

theorem no_emission_of_max_nonpos {g : List Trade} (hs : List.Sorted byTs g)
    (hq : ∀ t ∈ g, 0 ≤ t.qty) {M : ℚ} (hM : maxRawDepth g = some M)
    (hMle : M ≤ 0) (isin i : Nat) : rowAt isin g i = none := by
  by_cases hi : i < g.length
  case neg =>
    have hg : g.get? i = none := List.get?_eq_none.mpr (le_of_not_lt hi)
    rw [rowAt, hg]
    rfl
  case pos =>
  cases hd : depth_score g i with
  | none =>
    cases hg : g.get? i <;> simp [rowAt, hg, hd]
  | some d =>
    have hdraw : rawDepth g i = some d := by
      unfold depth_score at hd
      rw [hM] at hd
      dsimp only at hd
      rw [if_neg (not_lt.mpr hMle)] at hd
      exact hd
    have h0 : 0 ≤ d := rawDepth_nonneg hs hq hdraw
    have hle : d ≤ M := rawDepth_le_max hi hdraw hM
    have hd0 : d = 0 := le_antisymm (hle.trans hMle) h0
    obtain ⟨v, hv, t, ht, s, hsp, hrv⟩ :
        ∃ v, rolling_volume g i = some v ∧ ∃ t, rolling_time g i = some t ∧
          ∃ s, rolling_spread g i = some s ∧ v / (t + 1/2) / (s + 1/2) = d := by
      simpa only [rawDepth, Option.bind_eq_some, Option.some.injEq] using hdraw
    have ht0 : 0 ≤ t := rollMean_nonneg (time_since_last_nonneg hs) ht
    have hs0 : 0 ≤ s := rollMean_nonneg spread_bps_nonneg hsp
    have hv0 : v = 0 := by
      subst hd0
      have hden1 : t + 1/2 ≠ 0 := by linarith
      have hden2 : s + 1/2 ≠ 0 := by linarith
      rcases div_eq_zero_iff.mp hrv with h' | h'
      · rcases div_eq_zero_iff.mp h' with h'' | h''
        · exact h''
        · exact absurd h'' hden1
      · exact absurd h' hden2
    have hvwap : vwap g i = none := by
      simp only [rolling_volume, rollSum] at hv
      split at hv
      · obtain heq := Option.some.inj hv
        simp only [vwap]
        rw [if_pos (heq.trans hv0)]
      · cases hv
    exact rowAt_of_vwap_none hvwap

/-! ### Concrete evaluations of the engine -/

theorem compute_c5 : compute_depth_score 1 c5Trades = [c5Record] := by
  have hs : sortTrades c5Trades = c5Trades :=
    List.Sorted.insertionSort_eq (by decide : List.Sorted byTs c5Trades)
  have h0 : rowAt 1 c5Trades 0 = none := by decide
  have h1 : rowAt 1 c5Trades 1 = none := by decide
  have h2 : rowAt 1 c5Trades 2 = none := by decide
  have h3 : rowAt 1 c5Trades 3 = none := by decide
  have h4 : rowAt 1 c5Trades 4 = none := by decide
  have h5 : rowAt 1 c5Trades 5 = some c5Record := by decide
  show (List.range (sortTrades c5Trades).length).filterMap (rowAt 1 (sortTrades c5Trades)) =
    [c5Record]
  rw [hs]
  have hlen : c5Trades.length = 6 := by decide
  rw [hlen]
  have hr : List.range 6 = [0, 1, 2, 3, 4, 5] := by decide
  rw [hr]
  simp [List.filterMap_cons, h0, h1, h2, h3, h4, h5]

theorem compute_c1zero : compute_depth_score 0 c1ZeroTrades = [] := by
  have hs : sortTrades c1ZeroTrades = c1ZeroTrades :=
    List.Sorted.insertionSort_eq (by decide : List.Sorted byTs c1ZeroTrades)
  have h0 : rowAt 0 c1ZeroTrades 0 = none := by decide
  have h1 : rowAt 0 c1ZeroTrades 1 = none := by decide
  have h2 : rowAt 0 c1ZeroTrades 2 = none := by decide
  have h3 : rowAt 0 c1ZeroTrades 3 = none := by decide
  have h4 : rowAt 0 c1ZeroTrades 4 = none := by decide
  have h5 : rowAt 0 c1ZeroTrades 5 = none := by decide
  have h6 : rowAt 0 c1ZeroTrades 6 = none := by decide
  have h7 : rowAt 0 c1ZeroTrades 7 = none := by decide
  have h8 : rowAt 0 c1ZeroTrades 8 = none := by decide
  have h9 : rowAt 0 c1ZeroTrades 9 = none := by decide
  have h10 : rowAt 0 c1ZeroTrades 10 = none := by decide
  have h11 : rowAt 0 c1ZeroTrades 11 = none := by decide
  have h12 : rowAt 0 c1ZeroTrades 12 = none := by decide
  have h13 : rowAt 0 c1ZeroTrades 13 = none := by decide
  have h14 : rowAt 0 c1ZeroTrades 14 = none := by decide
  show (List.range (sortTrades c1ZeroTrades).length).filterMap
    (rowAt 0 (sortTrades c1ZeroTrades)) = []
  rw [hs]
  have hlen : c1ZeroTrades.length = 15 := by decide
  rw [hlen]
  have hr : List.range 15 = [0, 1, 2, 3, 4, 5, 6, 7, 8, 9, 10, 11, 12, 13, 14] := by decide
  rw [hr]
  simp [List.filterMap_cons, h0, h1, h2, h3, h4, h5, h6, h7, h8, h9, h10, h11, h12,
    h13, h14]

/-! ### Claim theorems: MetricsEngine -/

/-- Claim C1 (counterexample): the claim asserts that for any instrument with at
least 15 trades the maximum emitted depth_score is exactly 100, or 0 in the
all-zero-volume degenerate case.  On the all-zero-volume 15-trade instrument
the engine emits *no* records at all (every row's vwap is `0/0`, i.e. `NaN`,
and `dropna` removes the row), so no emitted record carries the claimed
maximal score of 100 or 0. -/
theorem C1_counterexample :
    c1ZeroTrades.length = 15 ∧ (∀ t ∈ c1ZeroTrades, t.qty = 0) ∧
    compute_depth_score 0 c1ZeroTrades = [] ∧
    ¬∃ r ∈ compute_depth_score 0 c1ZeroTrades, r.depth = 100 ∨ r.depth = 0 := by
  refine ⟨by decide, by decide, compute_c1zero, ?_⟩
  rw [compute_c1zero]
  simp

/-- Claim C1 (amended): with non-negative quantities, (i) whenever the raw depth
maximum `M` of an instrument is positive every depth_score is the raw depth
divided by `M` and multiplied by 100; (ii) every emitted depth_score lies in
`[0, 100]`; and (iii) if the instrument emits any record at all then some
emitted record has depth_score exactly 100 (in the degenerate all-zero-volume
case nothing is emitted, rather than records with score 0). -/
theorem C1_amended (isin : Nat) (trades : List Trade)
    (hq : ∀ t ∈ trades, 0 ≤ t.qty) :
    (∀ M, maxRawDepth (sortTrades trades) = some M → 0 < M →
      ∀ i, depth_score (sortTrades trades) i =
        (rawDepth (sortTrades trades) i).map (fun r => r / M * 100)) ∧
    (∀ r ∈ compute_depth_score isin trades, 0 ≤ r.depth ∧ r.depth ≤ 100) ∧
    (compute_depth_score isin trades ≠ [] →
      ∃ r ∈ compute_depth_score isin trades, r.depth = 100) := by
  have hsort : List.Sorted byTs (sortTrades trades) :=
    List.sorted_insertionSort byTs trades
  have hq' : ∀ t ∈ sortTrades trades, 0 ≤ t.qty :=
    fun t ht => hq t ((List.mem_insertionSort byTs).mp ht)
  refine ⟨?_, ?_, ?_⟩
  · intro M hM hMpos i
    unfold depth_score
    rw [hM]
    dsimp only
    rw [if_pos hMpos]
  · intro r hr
    obtain ⟨i, hi, hrow⟩ : ∃ i, i < (sortTrades trades).length ∧
        rowAt isin (sortTrades trades) i = some r := by
      simpa [compute_depth_score, List.mem_filterMap, List.mem_range] using hr
    exact depth_score_bounds hsort hq' hi (rowAt_depth hrow)
  · intro hne
    obtain ⟨r0, hr0⟩ := List.exists_mem_of_ne_nil _ hne
    obtain ⟨i0, hi0, hrow0⟩ : ∃ i, i < (sortTrades trades).length ∧
        rowAt isin (sortTrades trades) i = some r0 := by
      simpa [compute_depth_score, List.mem_filterMap, List.mem_range] using hr0
    obtain ⟨rr, hraw⟩ := depth_score_some_raw (rowAt_depth hrow0)
    obtain ⟨M, hM⟩ := maxRawDepth_isSome hi0 hraw
    by_cases hMpos : 0 < M
    · obtain ⟨i, hi, rec, hrow, hd100⟩ := exists_depth100 hsort hq' hM hMpos isin
      refine ⟨rec, ?_, hd100⟩
      simp only [compute_depth_score]
      exact List.mem_filterMap.mpr ⟨i, List.mem_range.mpr hi, hrow⟩
    · exfalso
      apply hne
      simp only [compute_depth_score]
      rw [List.filterMap_eq_nil_iff]
      intro a _
      exact no_emission_of_max_nonpos hsort hq' hM (le_of_not_lt hMpos) isin a

/-- Witness for claim C1 (amended) at the concrete six-trade input: the
hypotheses hold and a record with depth_score 100 is emitted. -/
theorem C1_amended_witness :
    ∃ r ∈ compute_depth_score 1 c5Trades, r.depth = 100 :=
  (C1_amended 1 c5Trades (by decide)).2.2 (by rw [compute_c5]; simp)

/-- Claim C4: the per-instrument records of the batch are empty when the
instrument has fewer than 6 trades (the `len > 5` gate skips it), and are
exactly `compute_depth_score` of its trades when it has at least 6. -/
theorem C4_min_six_trades (trades : List Trade) (i : Nat) :
    (engine trades).filter (fun r => r.isin = i) =
      if (trades.filter (fun t => t.isin = i)).length < 6 then []
      else compute_depth_score i (trades.filter (fun t => t.isin = i)) :=
  engine_group_split trades i

/-- Claim C5: on six trades at one-minute intervals with constant price 100.0
and constant quantity 1,000,000 the engine emits exactly one metric record
(for the 6th trade), with depth_score 100 and spread 0. -/
theorem C5_six_trade_scenario :
    compute_depth_score 1 c5Trades = [c5Record] ∧
    c5Record.depth = 100 ∧ c5Record.spread = 0 ∧ c5Record.ts = 5 :=
  ⟨compute_c5, rfl, rfl, rfl⟩

/-- Claim C9: batch processing is per-instrument isolated: if the per-group
computation raises on instrument `i`, the batch output equals the output on
the batch with instrument `i`'s trades removed (so every other instrument's
output is unaffected and the batch is not aborted). -/
theorem C9_isolation (f : Nat × List Trade → Except Unit (List MetricRecord))
    (trades : List Trade) (i : Nat)
    (hfail : f (i, trades.filter (fun t => t.isin = i)) = .error ()) :
    runBatch f (trades.filter (fun t => t.isin ≠ i)) = runBatch f trades :=
  batch_isolation f trades i hfail

/-- Witness for claim C9 at a concrete batch with a computation failing on
instrument 2. -/
theorem C9_isolation_witness :
    c9Fail (2, c9Trades.filter (fun t => t.isin = 2)) = .error () ∧
    runBatch c9Fail (c9Trades.filter (fun t => t.isin ≠ 2)) = runBatch c9Fail c9Trades :=
  ⟨rfl, C9_isolation c9Fail c9Trades 2 rfl⟩

/-! ### Facts about the grid aggregation -/

theorem tenorBucketDays_ranges (d : ℤ) :
    tenorBucketDays d =
      (if 0 ≤ d ∧ d < 365 then some 0
       else if 365 ≤ d ∧ d < 1095 then some 1
       else if 1095 ≤ d ∧ d < 1825 then some 2
       else if 1825 ≤ d ∧ d < 3650 then some 3
       else if 3650 ≤ d ∧ d < 36500 then some 4
       else none) := by
  have h365 : (0:ℚ) < 365 := by norm_num
  have hle : ∀ k : ℤ, ((k:ℚ) ≤ (d:ℚ) / 365 ↔ k * 365 ≤ d) := by
    intro k
    rw [le_div_iff₀ h365]
    constructor
    · intro h'
      exact_mod_cast h'
    · intro h'
      exact_mod_cast h'
  have hlt : ∀ k : ℤ, ((d:ℚ) / 365 < (k:ℚ) ↔ d < k * 365) := by
    intro k
    rw [div_lt_iff₀ h365]
    constructor
    · intro h'
      exact_mod_cast h'
    · intro h'
      exact_mod_cast h'
  unfold tenorBucketDays tenor_bucket
  rw [show (0:ℚ) = ((0:ℤ):ℚ) by norm_num, show (1:ℚ) = ((1:ℤ):ℚ) by norm_num,
    show (3:ℚ) = ((3:ℤ):ℚ) by norm_num, show (5:ℚ) = ((5:ℤ):ℚ) by norm_num,
    show (10:ℚ) = ((10:ℤ):ℚ) by norm_num, show (100:ℚ) = ((100:ℤ):ℚ) by norm_num]
  simp only [hle, hlt]
  norm_num

/-- Claim C3 (counterexample): a record with a tenor of exactly 365 days is
bucketed `1-3y` by the code (365/365 = 1.0 falls in the `[1,3)` bin), while
the spec's stated day ranges `[0,365) ∪ [366,1095) ∪ ...` contain no day 365,
so under the claim the record would have to be excluded. -/
theorem C3_counterexample :
    tenorDays c3Row = 365 ∧ bucketOf c3Row = some 1 ∧
    specTenorBucketDays (tenorDays c3Row) = none := by
  refine ⟨by decide, by decide, by decide⟩

/-- Claim C3 (amended): the code partitions the whole-day tenor into exactly
`[0,365), [365,1095), [1095,1825), [1825,3650), [3650,36500)` (days 365, 1095
and 1825 land in the *following* bucket rather than being excluded, and tenors
of 36500 days or more are excluded); the bucket is computed from the record's
own timestamp, and every cell contains only records whose rating and bucket
match the cell's key, so unbucketable or unrated records join no cell. -/
theorem C3_amended :
    (∀ d : ℤ, tenorBucketDays d =
      (if 0 ≤ d ∧ d < 365 then some 0
       else if 365 ≤ d ∧ d < 1095 then some 1
       else if 1095 ≤ d ∧ d < 1825 then some 2
       else if 1825 ≤ d ∧ d < 3650 then some 3
       else if 3650 ≤ d ∧ d < 36500 then some 4
       else none)) ∧
    (∀ r : MRow, bucketOf r = tenorBucketDays (tenorDays r)) ∧
    (∀ (latest : List MRow) (ρ : Nat) (b : Fin 5) (r : MRow),
      r ∈ cellRows latest ρ b → r.rating = some ρ ∧ bucketOf r = some b) := by
  refine ⟨tenorBucketDays_ranges, fun r => rfl, ?_⟩
  intro latest ρ b r hr
  simpa using (List.mem_filter.mp hr).2

/-- Witness for claim C3 (amended) at day 365 and the concrete row `c3Row`. -/
theorem C3_amended_witness :
    tenorBucketDays 365 = some 1 ∧
    (c3Row ∈ cellRows [c3Row] 0 1 → c3Row.rating = some 0 ∧ bucketOf c3Row = some 1) := by
  constructor
  · rw [C3_amended.1 365]
    norm_num
  · exact C3_amended.2.2 [c3Row] 0 1 c3Row

/-- Claim C2: the cell classification is evaluated in priority order with first
match winning: RED when depth is missing or depth < p25 or
spread > 1.5×median_spread; else GREEN when depth ≥ p75 and
spread ≤ median_spread; else AMBER.  At the boundaries (given the invariants
p25 ≤ p75 and 0 ≤ median_spread of the derived thresholds): depth exactly p25
with spread ≤ 1.5×median_spread is not RED, and depth exactly p75 with spread
exactly median_spread is GREEN. -/
theorem C2_classification (p25 p75 ms d s : ℚ) (hq : p25 ≤ p75) (hm : 0 ≤ ms) :
    (colour (some p25) (some p75) (some ms) (some d) (some s) = .red ↔
      (d < p25 ∨ ms * (3/2) < s)) ∧
    (colour (some p25) (some p75) (some ms) (some d) (some s) = .green ↔
      (¬(d < p25 ∨ ms * (3/2) < s) ∧ p75 ≤ d ∧ s ≤ ms)) ∧
    (colour (some p25) (some p75) (some ms) (some d) (some s) = .amber ↔
      (¬(d < p25 ∨ ms * (3/2) < s) ∧ ¬(p75 ≤ d ∧ s ≤ ms))) ∧
    (colour (some p25) (some p75) (some ms) none (some s) = .red) ∧
    (d = p25 → s ≤ ms * (3/2) →
      colour (some p25) (some p75) (some ms) (some d) (some s) ≠ .red) ∧
    (colour (some p25) (some p75) (some ms) (some p75) (some ms) = .green) := by
  simp only [colour, oLtB, oLeB, Option.isNone_none, Option.isNone_some,
    Option.map_some', Bool.or_eq_true, Bool.and_eq_true, decide_eq_true_eq]
  refine ⟨?_, ?_, ?_, ?_, ?_, ?_⟩
  · constructor
    · intro h
      by_contra hc
      push_neg at hc
      rw [if_neg (by simp [hc.1, hc.2])] at h
      split at h <;> cases h
    · intro h
      rw [if_pos (by simp [h])]
  · constructor
    · intro h
      split at h
      · cases h
      · rename_i hred
        split at h
        · rename_i hgreen
          simp only [Bool.false_eq_true, false_or] at hred
          exact ⟨hred, hgreen.1, hgreen.2⟩
        · cases h
    · intro ⟨h1, h2, h3⟩
      rw [if_neg (by simpa using h1), if_pos (by simp [h2, h3])]
  · constructor
    · intro h
      split at h
      · cases h
      · rename_i hred
        split at h
        · cases h
        · rename_i hgreen
          simp only [Bool.false_eq_true, false_or] at hred
          exact ⟨hred, hgreen⟩
    · intro ⟨h1, h2⟩
      rw [if_neg (by simpa using h1), if_neg (by simpa using h2)]
  · rfl
  · intro hd hs h
    rw [if_neg (by simp [hd, le_refl, not_lt.mpr hs, not_lt])] at h
    split at h <;> cases h
  · rw [if_neg (by simp [not_lt.mpr hq, not_lt, mul_comm]; nlinarith),
      if_pos (by simp)]

/-- Witness for claim C2 at concrete thresholds `p25 = 1, p75 = 2,
median_spread = 1`: a cell with depth exactly p75 and spread exactly
median_spread is classified GREEN. -/
theorem C2_classification_witness :
    colour (some 1) (some 2) (some 1) (some 2) (some 1) = .green :=
  (C2_classification 1 2 1 0 0 (by norm_num) (by norm_num)).2.2.2.2.2

/-- Claim C8: the aggregation is a pure function of the metrics set — running it
twice on the same input yields identical thresholds and identical
classifications — and classification is total: every cell's colour is one of
RED, AMBER, GREEN. -/
theorem C8_deterministic_total (ms : List MRow) :
    aggregate ms = aggregate ms ∧ thresholds ms = thresholds ms ∧
    ∀ p ∈ aggregate ms, p.2 = Colour.red ∨ p.2 = Colour.amber ∨ p.2 = Colour.green := by
  refine ⟨rfl, rfl, ?_⟩
  rintro ⟨c, col⟩ _
  cases col
  · exact Or.inl rfl
  · exact Or.inr (Or.inl rfl)
  · exact Or.inr (Or.inr rfl)

/-- Witness for claim C8 at the concrete two-instrument metrics set: the
populated cell is classified, and its colour is one of the three classes. -/
theorem C8_deterministic_total_witness :
    ((⟨0, 1, some 55, some (3/2), 30, 2, some 200⟩, Colour.green) :
      GridCell × Colour) ∈ aggregate c7Rows ∧
    (Colour.green = Colour.red ∨ Colour.green = Colour.amber ∨
      Colour.green = Colour.green) :=
  ⟨by decide, (C8_deterministic_total c7Rows).2.2
    (⟨0, 1, some 55, some (3/2), 30, 2, some 200⟩, Colour.green) (by decide)⟩

theorem pickLatest_eq_none {l : List MRow} : pickLatest l = none ↔ l = [] := by
  cases l with
  | nil => simp [pickLatest]
  | cons r rs =>
    constructor
    · intro h
      cases hb : pickLatest rs
      · simp only [pickLatest, hb] at h
        cases h
      · simp only [pickLatest, hb] at h
        split at h <;> cases h
    · intro h
      cases h

theorem pickLatest_mem {l : List MRow} {r : MRow} (h : pickLatest l = some r) :
    r ∈ l := by
  induction l generalizing r with
  | nil => cases h
  | cons a t ih =>
    cases hb : pickLatest t with
    | none =>
      simp only [pickLatest, hb] at h
      obtain rfl := Option.some.inj h
      exact List.mem_cons_self _ _
    | some b =>
      simp only [pickLatest, hb] at h
      split at h
      · obtain rfl := Option.some.inj h
        exact List.mem_cons_of_mem _ (ih hb)
      · obtain rfl := Option.some.inj h
        exact List.mem_cons_self _ _

theorem pickLatest_max {l : List MRow} {r : MRow} (h : pickLatest l = some r) :
    ∀ x ∈ l, x.ts ≤ r.ts := by
  induction l generalizing r with
  | nil => cases h
  | cons a t ih =>
    cases hb : pickLatest t with
    | none =>
      have ht : t = [] := pickLatest_eq_none.mp hb
      subst ht
      simp only [pickLatest] at h
      obtain rfl := Option.some.inj h
      intro x hx
      rcases List.mem_singleton.mp hx with rfl
      exact le_refl _
    | some b =>
      simp only [pickLatest, hb] at h
      split at h
      · rename_i hcmp
        obtain rfl := Option.some.inj h
        intro x hx
        rcases List.mem_cons.mp hx with rfl | hx'
        · exact le_of_lt hcmp
        · exact ih hb x hx'
      · rename_i hcmp
        obtain rfl := Option.some.inj h
        intro x hx
        rcases List.mem_cons.mp hx with rfl | hx'
        · exact le_refl _
        · exact (ih hb x hx').trans (not_lt.mp hcmp)

theorem pickLatest_first {l : List MRow} {r : MRow} (h : pickLatest l = some r) :
    ∃ l₁ l₂, l = l₁ ++ r :: l₂ ∧ ∀ p ∈ l₁, p.ts < r.ts := by
  induction l generalizing r with
  | nil => cases h
  | cons a t ih =>
    cases hb : pickLatest t with
    | none =>
      simp only [pickLatest, hb] at h
      obtain rfl := Option.some.inj h
      exact ⟨[], t, rfl, by simp⟩
    | some b =>
      simp only [pickLatest, hb] at h
      split at h
      · rename_i hcmp
        obtain rfl := Option.some.inj h
        obtain ⟨l₁, l₂, heq, hpre⟩ := ih hb
        refine ⟨a :: l₁, l₂, by rw [heq]; rfl, ?_⟩
        intro p hp
        rcases List.mem_cons.mp hp with rfl | hp'
        · exact hcmp
        · exact hpre p hp'
      · obtain rfl := Option.some.inj h
        exact ⟨[], t, rfl, by simp⟩

theorem sortedIsins_exists_pick (ms : List MRow) :
    ∀ i ∈ sortedIsins ms, ∃ r, pickLatest (ms.filter (fun x => x.isin = i)) = some r ∧
      r.isin = i := by
  intro i hi
  have hmem : i ∈ ms.map (·.isin) :=
    mem_uniqueFirst.mp ((List.mem_insertionSort _).mp hi)
  obtain ⟨r0, hr0, hr0i⟩ := List.mem_map.mp hmem
  have hfil : r0 ∈ ms.filter (fun x => x.isin = i) :=
    List.mem_filter.mpr ⟨hr0, by simp [hr0i]⟩
  cases hpl : pickLatest (ms.filter (fun x => x.isin = i)) with
  | none => exact absurd (pickLatest_eq_none.mp hpl) (List.ne_nil_of_mem hfil)
  | some r =>
    refine ⟨r, rfl, ?_⟩
    simpa using (List.mem_filter.mp (pickLatest_mem hpl)).2

theorem filterMap_map_isin (f : Nat → Option MRow) (L : List Nat)
    (h : ∀ i ∈ L, ∃ r, f i = some r ∧ r.isin = i) :
    ((L.filterMap f).map (·.isin)) = L := by
  induction L with
  | nil => simp
  | cons i t ih =>
    obtain ⟨r, hf, hk⟩ := h i (List.mem_cons_self _ _)
    rw [List.filterMap_cons, hf]
    simp only [List.map_cons, hk]
    rw [ih (fun j hj => h j (List.mem_cons_of_mem _ hj))]

theorem latest_map_isin (ms : List MRow) :
    (latestPerInstrument ms).map (·.isin) = sortedIsins ms :=
  filterMap_map_isin _ _ (sortedIsins_exists_pick ms)

theorem sortedIsins_nodup (ms : List MRow) : (sortedIsins ms).Nodup :=
  ((List.perm_insertionSort _ _).nodup_iff).mpr (nodup_uniqueFirst _)

/-- Claim C10: the latest-per-instrument selection keeps exactly one record per
distinct instrument of the input — no instrument with a record is dropped or
duplicated — and the kept record is the first one attaining the maximal
timestamp of its instrument in the series order. -/
theorem C10_latest_selection (ms : List MRow) :
    ((latestPerInstrument ms).map (·.isin)).Nodup ∧
    (∀ i, (i ∈ (latestPerInstrument ms).map (·.isin)) ↔ i ∈ ms.map (·.isin)) ∧
    (∀ r ∈ latestPerInstrument ms, r ∈ ms ∧
      (∀ r' ∈ ms, r'.isin = r.isin → r'.ts ≤ r.ts) ∧
      ∃ l₁ l₂, ms.filter (fun x => x.isin = r.isin) = l₁ ++ r :: l₂ ∧
        ∀ p ∈ l₁, p.ts < r.ts) := by
  refine ⟨?_, ?_, ?_⟩
  · rw [latest_map_isin]
    exact sortedIsins_nodup ms
  · intro i
    rw [latest_map_isin]
    unfold sortedIsins
    rw [List.mem_insertionSort]
    exact mem_uniqueFirst
  · intro r hr
    obtain ⟨i, hiL, hpl⟩ := List.mem_filterMap.mp hr
    have hrfil := pickLatest_mem hpl
    have hri : r.isin = i := by simpa using (List.mem_filter.mp hrfil).2
    subst hri
    refine ⟨List.mem_of_mem_filter hrfil, ?_, ?_⟩
    · intro r' hr' heq
      exact pickLatest_max hpl r' (List.mem_filter.mpr ⟨hr', by simp [heq]⟩)
    · exact pickLatest_first hpl

/-- Witness for claim C10 at the concrete two-instrument metrics set. -/
theorem C10_latest_selection_witness :
    (⟨1, 10, some 0, 400, 50, 1, 10, 100⟩ : MRow) ∈ latestPerInstrument c7Rows ∧
    (⟨1, 10, some 0, 400, 50, 1, 10, 100⟩ : MRow) ∈ c7Rows :=
  ⟨by decide, ((C10_latest_selection c7Rows).2.2 _ (by decide)).1⟩

/-! ### Cell counting -/

theorem sum_map_add {α : Type} (L : List α) (f g : α → Nat) :
    (L.map (fun x => f x + g x)).sum = (L.map f).sum + (L.map g).sum := by
  induction L with
  | nil => simp
  | cons a t ih =>
    simp only [List.map_cons, List.sum_cons, ih]
    omega

theorem sum_indicator_zero (L : List Nat) (a : Nat) (ha : a ∉ L) :
    (L.map (fun x => if x = a then 1 else 0)).sum = 0 := by
  apply List.sum_eq_zero
  intro x hx
  obtain ⟨b, hb, hbx⟩ := List.mem_map.mp hx
  have hba : b ≠ a := fun hba => ha (hba ▸ hb)
  rw [← hbx, if_neg hba]

theorem sum_indicator_nodup {L : List Nat} (hL : L.Nodup) {a : Nat} (ha : a ∈ L) :
    (L.map (fun x => if x = a then 1 else 0)).sum = 1 := by
  induction L with
  | nil => cases ha
  | cons b t ih =>
    rcases List.mem_cons.mp ha with rfl | hat
    · simp only [List.map_cons, List.sum_cons, if_pos rfl]
      rw [sum_indicator_zero t a (List.nodup_cons.mp hL).1]
      simp
    · have hba : b ≠ a := fun h => (List.nodup_cons.mp hL).1 (h ▸ hat)
      simp only [List.map_cons, List.sum_cons, if_neg hba]
      rw [ih (List.nodup_cons.mp hL).2 hat]

theorem bucket_indicator_sum (b0 : Fin 5) :
    (bucketList.map (fun b => if b = b0 then 1 else 0)).sum = 1 := by
  fin_cases b0 <;> decide

theorem inner_cell_count (latest : List MRow) (ρ : Nat) :
    (bucketList.map (fun b => (cellRows latest ρ b).length)).sum =
      (latest.filter (fun r => r.rating = some ρ ∧ bucketOf r ≠ none)).length := by
  induction latest with
  | nil => simp [cellRows]
  | cons r t ih =>
    by_cases hρ : r.rating = some ρ
    · cases hbk : bucketOf r with
      | none =>
        have hsplit : ∀ b ∈ bucketList, (cellRows (r :: t) ρ b).length =
            (cellRows t ρ b).length := by
          intro b _
          rw [cellRows, List.filter_cons_of_neg (by simp [hbk])]
          rfl
        rw [List.map_congr_left hsplit, ih,
          List.filter_cons_of_neg (by simp [hbk])]
      | some b0 =>
        have hsplit : ∀ b ∈ bucketList, (cellRows (r :: t) ρ b).length =
            (if b = b0 then 1 else 0) + (cellRows t ρ b).length := by
          intro b _
          by_cases hbb : b = b0
          · subst hbb
            rw [cellRows, List.filter_cons_of_pos (by simp [hρ, hbk])]
            simp [cellRows]
            omega
          · rw [cellRows, List.filter_cons_of_neg
              (by simp [hρ, hbk]; exact fun h => hbb h.symm)]
            simp [cellRows, hbb]
        rw [List.map_congr_left hsplit, sum_map_add, bucket_indicator_sum b0, ih,
          List.filter_cons_of_pos (by simp [hρ, hbk]), List.length_cons]
        omega
    · have hsplit : ∀ b ∈ bucketList, (cellRows (r :: t) ρ b).length =
          (cellRows t ρ b).length := by
        intro b _
        rw [cellRows, List.filter_cons_of_neg (by simp [hρ])]
        rfl
      rw [List.map_congr_left hsplit, ih,
        List.filter_cons_of_neg (by simp [hρ])]

theorem outer_cell_count (latest : List MRow) (R : List Nat) (hR : R.Nodup)
    (hcov : ∀ r ∈ latest, ∀ ρ, r.rating = some ρ → ρ ∈ R) :
    (R.map (fun ρ =>
      (latest.filter (fun r => r.rating = some ρ ∧ bucketOf r ≠ none)).length)).sum =
      (latest.filter (fun r => r.rating ≠ none ∧ bucketOf r ≠ none)).length := by
  induction latest with
  | nil => simp
  | cons r t ih =>
    have hcov' : ∀ r' ∈ t, ∀ ρ, r'.rating = some ρ → ρ ∈ R :=
      fun r' hr' => hcov r' (List.mem_cons_of_mem _ hr')
    cases hrat : r.rating with
    | none =>
      have hsplit : ∀ ρ ∈ R,
          ((r :: t).filter (fun x => x.rating = some ρ ∧ bucketOf x ≠ none)).length =
            (t.filter (fun x => x.rating = some ρ ∧ bucketOf x ≠ none)).length := by
        intro ρ _
        rw [List.filter_cons_of_neg (by simp [hrat])]
      rw [List.map_congr_left hsplit, ih hcov',
        List.filter_cons_of_neg (by simp [hrat])]
    | some ρ0 =>
      cases hbk : bucketOf r with
      | none =>
        have hsplit : ∀ ρ ∈ R,
            ((r :: t).filter (fun x => x.rating = some ρ ∧ bucketOf x ≠ none)).length =
              (t.filter (fun x => x.rating = some ρ ∧ bucketOf x ≠ none)).length := by
          intro ρ _
          rw [List.filter_cons_of_neg (by simp [hbk])]
        rw [List.map_congr_left hsplit, ih hcov',
          List.filter_cons_of_neg (by simp [hbk])]
      | some b0 =>
        have hmem : ρ0 ∈ R := hcov r (List.mem_cons_self _ _) ρ0 hrat
        have hsplit : ∀ ρ ∈ R,
            ((r :: t).filter (fun x => x.rating = some ρ ∧ bucketOf x ≠ none)).length =
              (if ρ = ρ0 then 1 else 0) +
                (t.filter (fun x => x.rating = some ρ ∧ bucketOf x ≠ none)).length := by
          intro ρ _
          by_cases hρρ : ρ = ρ0
          · subst hρρ
            rw [List.filter_cons_of_pos (by simp [hrat, hbk]), List.length_cons]
            simp
            omega
          · rw [List.filter_cons_of_neg
              (by simp [hrat, hbk]; exact fun h => hρρ h.symm)]
            simp [hρρ]
        rw [List.map_congr_left hsplit, sum_map_add, sum_indicator_nodup hR hmem,
          ih hcov', List.filter_cons_of_pos (by simp [hrat, hbk]), List.length_cons]
        omega

theorem sumTradeCount_flatten (L : List (List GridCell)) :
    sumTradeCount L.flatten = (L.map sumTradeCount).sum := by
  induction L with
  | nil => simp [sumTradeCount]
  | cons a t ih =>
    simp [sumTradeCount, List.map_append, List.sum_append] at ih ⊢
    omega

theorem gridRatings_nodup (latest : List MRow) : (gridRatings latest).Nodup :=
  ((List.perm_insertionSort _ _).nodup_iff).mpr (nodup_uniqueFirst _)

theorem gridRatings_cover (latest : List MRow) :
    ∀ r ∈ latest, ∀ ρ, r.rating = some ρ → ρ ∈ gridRatings latest := by
  intro r hr ρ hρ
  unfold gridRatings
  rw [List.mem_insertionSort, mem_uniqueFirst]
  exact List.mem_filterMap.mpr ⟨r, hr, hρ⟩

/-- Claim C6 (amended): each cell's trade_count equals the number of latest
records (one per distinct instrument, their ids are pairwise distinct) whose
rating and bucket match the cell; summed over all cells this equals the number
of instruments whose *latest* record has a mapped rating and an in-range
tenor — instruments whose latest record is unbucketable are excluded from
every cell even if they have older bucketable records. -/
theorem C6_amended (ms : List MRow) :
    (∀ c ∈ grid ms, c.n_trades =
      ((latestPerInstrument ms).filter
        (fun r => r.rating = some c.rating ∧ bucketOf r = some c.bucket)).length) ∧
    ((latestPerInstrument ms).map (·.isin)).Nodup ∧
    sumTradeCount (grid ms) =
      ((latestPerInstrument ms).filter
        (fun r => r.rating ≠ none ∧ bucketOf r ≠ none)).length := by
  refine ⟨?_, ?_, ?_⟩
  · intro c hc
    simp only [grid, List.mem_flatten, List.mem_map] at hc
    obtain ⟨block, ⟨ρ, hρ, rfl⟩, hcb⟩ := hc
    obtain ⟨b, hb, rfl⟩ := List.mem_map.mp hcb
    simp [mkCell, cellRows]
  · rw [latest_map_isin]
    exact sortedIsins_nodup ms
  · unfold grid
    rw [sumTradeCount_flatten, List.map_map]
    have hblock : ∀ ρ ∈ gridRatings (latestPerInstrument ms),
        (sumTradeCount ∘ fun ρ => bucketList.map (fun b => mkCell (latestPerInstrument ms) ρ b)) ρ =
          (bucketList.map (fun b => (cellRows (latestPerInstrument ms) ρ b).length)).sum := by
      intro ρ _
      simp [sumTradeCount, List.map_map, mkCell, Function.comp_def]
    rw [List.map_congr_left hblock]
    have hinner : ∀ ρ ∈ gridRatings (latestPerInstrument ms),
        (bucketList.map (fun b => (cellRows (latestPerInstrument ms) ρ b).length)).sum =
          ((latestPerInstrument ms).filter
            (fun r => r.rating = some ρ ∧ bucketOf r ≠ none)).length :=
      fun ρ _ => inner_cell_count _ ρ
    rw [List.map_congr_left hinner]
    exact outer_cell_count _ _ (gridRatings_nodup _) (gridRatings_cover _)

/-- Claim C6 (counterexample): an instrument whose *latest* record has a
negative tenor contributes to no cell, so the sum of trade_count over all
cells is 0 although the instrument has a valid, bucketable metric record
(an earlier one). -/
theorem C6_counterexample :
    sumTradeCount (grid c6Rows) = 0 ∧
    (uniqueFirst (c6Rows.map (·.isin))).length = 1 ∧
    (∃ r ∈ c6Rows, r.rating ≠ none ∧ bucketOf r ≠ none) := by
  refine ⟨by decide, by decide, by decide⟩

/-- Witness for claim C6 (amended) at the concrete two-instrument metrics set:
the populated cell's count is 2. -/
theorem C6_amended_witness :
    (⟨0, 1, some 55, some (3/2), 30, 2, some 200⟩ : GridCell) ∈ grid c7Rows ∧
    (2 : Nat) = ((latestPerInstrument c7Rows).filter
      (fun r => r.rating = some 0 ∧ bucketOf r = some 1)).length :=
  ⟨by decide, (C6_amended c7Rows).1 ⟨0, 1, some 55, some (3/2), 30, 2, some 200⟩ (by decide)⟩

/-! ### The per-cell `'last'` vwap -/

theorem sorted_filterMap_isin {L : List Nat} (hL : List.Sorted (· ≤ ·) L)
    (f : Nat → Option MRow) (hf : ∀ i r, f i = some r → r.isin = i) :
    List.Sorted (fun a b : MRow => a.isin ≤ b.isin) (L.filterMap f) := by
  induction L with
  | nil => simp
  | cons i t ih =>
    have hc := List.sorted_cons.mp hL
    rw [List.filterMap_cons]
    cases hfi : f i with
    | none => exact ih hc.2
    | some r =>
      rw [List.sorted_cons]
      refine ⟨?_, ih hc.2⟩
      intro y hy
      obtain ⟨j, hj, hfj⟩ := List.mem_filterMap.mp hy
      rw [hf i r hfi, hf j y hfj]
      exact hc.1 j hj

theorem latest_sorted_isin (ms : List MRow) :
    List.Sorted (fun a b : MRow => a.isin ≤ b.isin) (latestPerInstrument ms) := by
  apply sorted_filterMap_isin
  · exact List.sorted_insertionSort _ _
  · intro i r hr
    simpa using (List.mem_filter.mp (pickLatest_mem hr)).2

theorem sorted_getLast_max {l : List MRow}
    (hl : List.Sorted (fun a b : MRow => a.isin ≤ b.isin) l) (hne : l ≠ []) :
    ∀ x ∈ l, x.isin ≤ (l.getLast hne).isin := by
  induction l with
  | nil => exact absurd rfl hne
  | cons a t ih =>
    cases t with
    | nil =>
      intro x hx
      rcases List.mem_singleton.mp hx with rfl
      exact le_refl _
    | cons b u =>
      have hgl : (a :: b :: u).getLast hne = (b :: u).getLast (by simp) :=
        List.getLast_cons (by simp)
      intro x hx
      rcases List.mem_cons.mp hx with rfl | hx'
      · rw [hgl]
        exact (List.sorted_cons.mp hl).1 _ (List.getLast_mem (by simp))
      · rw [hgl]
        exact ih (List.sorted_cons.mp hl).2 (by simp) x hx'

/-- Claim C7 (counterexample): in the single populated cell of the concrete
two-instrument metrics set, the cell's vwap is 200 — the vwap of instrument 2,
the *last row in ascending instrument-id order* — while the most recent
contributor by timestamp (ts 10, instrument 1) has vwap 100. -/
theorem C7_counterexample :
    ((grid c7Rows).filter (fun c => c.n_trades ≠ 0)) =
      [⟨0, 1, some 55, some (3/2), 30, 2, some 200⟩] ∧
    (∀ r ∈ latestPerInstrument c7Rows, r.ts ≤ 10) ∧
    (∃ r ∈ latestPerInstrument c7Rows, r.ts = 10 ∧ r.vw = 100) ∧
    ¬∃ r ∈ latestPerInstrument c7Rows,
      (∀ r' ∈ latestPerInstrument c7Rows, r'.ts ≤ r.ts) ∧ some r.vw = some (200:ℚ) := by
  refine ⟨by decide, by decide, by decide, by decide⟩

/-- Claim C7 (amended): a populated cell's vwap is the vwap of its contributor
with the *largest instrument id* — pandas `'last'` over the latest frame,
whose rows are ordered by ascending instrument id, not by timestamp. -/
theorem C7_amended (ms : List MRow) :
    ∀ c ∈ grid ms, 0 < c.n_trades →
      ∃ r ∈ latestPerInstrument ms, r.rating = some c.rating ∧
        bucketOf r = some c.bucket ∧ c.vw = some r.vw ∧
        ∀ r' ∈ latestPerInstrument ms, r'.rating = some c.rating →
          bucketOf r' = some c.bucket → r'.isin ≤ r.isin := by
  intro c hc hn
  simp only [grid, List.mem_flatten, List.mem_map] at hc
  obtain ⟨block, ⟨ρ, hρ, rfl⟩, hcb⟩ := hc
  obtain ⟨b, hb, rfl⟩ := List.mem_map.mp hcb
  have hn' : 0 < (cellRows (latestPerInstrument ms) ρ b).length := hn
  have hne : cellRows (latestPerInstrument ms) ρ b ≠ [] :=
    List.ne_nil_of_length_pos hn'
  refine ⟨(cellRows (latestPerInstrument ms) ρ b).getLast hne, ?_, ?_, ?_, ?_, ?_⟩
  · exact List.mem_of_mem_filter (List.getLast_mem hne)
  · have := (List.mem_filter.mp (List.getLast_mem hne)).2
    simp only [decide_eq_true_eq] at this
    exact this.1
  · have := (List.mem_filter.mp (List.getLast_mem hne)).2
    simp only [decide_eq_true_eq] at this
    exact this.2
  · show ((cellRows (latestPerInstrument ms) ρ b).getLast?).map (·.vw) = _
    rw [List.getLast?_eq_getLast _ hne]
    rfl
  · intro r' hr' hrat' hbk'
    have hr'rows : r' ∈ cellRows (latestPerInstrument ms) ρ b :=
      List.mem_filter.mpr ⟨hr', by
        have hcr : (mkCell (latestPerInstrument ms) ρ b).rating = ρ := rfl
        have hcbk : (mkCell (latestPerInstrument ms) ρ b).bucket = b := rfl
        rw [hcr] at hrat'
        rw [hcbk] at hbk'
        simp [hrat', hbk']⟩
    have hsorted : List.Sorted (fun a b : MRow => a.isin ≤ b.isin)
        (cellRows (latestPerInstrument ms) ρ b) :=
      List.Pairwise.filter _ (latest_sorted_isin ms)
    exact sorted_getLast_max hsorted hne r' hr'rows

/-- Witness for claim C7 (amended) at the concrete two-instrument metrics set. -/
theorem C7_amended_witness :
    ∃ r ∈ latestPerInstrument c7Rows,
      r.rating = some (⟨0, 1, some 55, some (3/2), 30, 2, some 200⟩ : GridCell).rating ∧
      bucketOf r = some (⟨0, 1, some 55, some (3/2), 30, 2, some 200⟩ : GridCell).bucket ∧
      (⟨0, 1, some 55, some (3/2), 30, 2, some 200⟩ : GridCell).vw = some r.vw ∧
      ∀ r' ∈ latestPerInstrument c7Rows,
        r'.rating = some (⟨0, 1, some 55, some (3/2), 30, 2, some 200⟩ : GridCell).rating →
        bucketOf r' = some (⟨0, 1, some 55, some (3/2), 30, 2, some 200⟩ : GridCell).bucket →
        r'.isin ≤ r.isin :=
  C7_amended c7Rows ⟨0, 1, some 55, some (3/2), 30, 2, some 200⟩ (by decide) (by decide)

end Heatmap
